import Mathlib

/-!
Verification of the shotmaker structured-text codec.

This file gives a shallow embedding of the core of the `shotmaker`
repository (files `data_converters.py` and `prompt_engine.py`) and proves
or refutes the frozen claims about it.  Text is modelled as `List Char`;
records and converter assignments as association lists (Python dicts
preserve insertion order); fallible operations return `Except`.
-/

set_option autoImplicit false

namespace Shotmaker

/-- Field names, header text and values are all character lists. -/
abbrev Key := List Char

/-! ### Python string primitives -/

/-- The whitespace set of Python `str.strip` / regex `\s` (ASCII part). -/
def pyIsSpace (c : Char) : Bool :=
  c == ' ' || c == '\t' || c == '\n' || c == '\r' || c == '\x0b' || c == '\x0c'

/-- Python `str.strip()`: drop leading and trailing whitespace. -/
def pyStrip (l : List Char) : List Char :=
  ((l.dropWhile pyIsSpace).reverse.dropWhile pyIsSpace).reverse

/-- Boolean prefix test on character lists. -/
def lStarts : List Char → List Char → Bool
  | [], _ => true
  | _ :: _, [] => false
  | x :: xs, y :: ys => x == y && lStarts xs ys

/-- First value bound to `k` in an association list (Python `dict.get`). -/
def alookup {α : Type} (k : Key) : List (Key × α) → Option α
  | [] => none
  | (k', v) :: rest => if k' = k then some v else alookup k rest

/-- Index of the first occurrence of `k` (Python `list.index`, as `Option`). -/
def idxOf? (k : Key) : List Key → Option Nat
  | [] => none
  | x :: xs => if x = k then some 0 else (idxOf? k xs).map (· + 1)

/-- Total version of `idxOf?`; only used where the element is present. -/
def idxOfK (k : Key) (l : List Key) : Nat := (idxOf? k l).getD 0

/-- Python `"sep".join(pieces)` on character lists. -/
def joinSep (sep : List Char) : List (List Char) → List Char
  | [] => []
  | [x] => x
  | x :: y :: rest => x ++ sep ++ joinSep sep (y :: rest)

/-- Python `str.split(sep)` (non-overlapping, leftmost), fuelled so that
it is structurally recursive.  `sep = []` never splits (Python raises
there; the sources only ever split on non-empty separators). -/
def splitOnF (sep : List Char) : Nat → List Char → List Char → List (List Char)
  | 0, acc, l => [acc.reverse ++ l]
  | _ + 1, acc, [] => [acc.reverse]
  | fuel + 1, acc, l@(x :: xs) =>
    if sep ≠ [] ∧ lStarts sep l = true then
      acc.reverse :: splitOnF sep fuel [] (l.drop sep.length)
    else
      splitOnF sep fuel (x :: acc) xs

/-- Python `str.split(sep)` for non-empty `sep`. -/
def splitOn (sep l : List Char) : List (List Char) := splitOnF sep (l.length + 1) [] l

/-! ### BasicDelimiter (`data_converters.py`, lines 24-39)

`format()` returns `"\n" + char*n + "\n"`; `split` applies
`re.split(rf"\n{char}{{n,}}\n", text)`.  The `char` is interpolated into
the pattern UNESCAPED, so the compiled regex depends on what the engine
makes of that character:

* for a character the engine treats as a literal atom, a match is a
  newline, a maximal run of at least `n` copies of `char`, and a closing
  newline — modelled by `matchRun`/`matchSep`/`pySplit` below;
* for `char = '.'` the quantified atom is the wildcard (any character
  except a newline), so a match is a newline, at least `n` arbitrary
  non-newline characters, and a closing newline — modelled by
  `matchRunDot`/`matchSepDot`/`pySplitDot` below;
* for the remaining regex metacharacters the pattern either fails to
  compile (`'*'`, `'+'`, `'?'`, `'('`, `'['`, ... raise `re.error`
  inside `_setup`) or compiles to an unrelated pattern (`'|'`, `'\\'`,
  ...); these are outside the scope of this model and of the theorems
  below, which carry a `regexLiteralChar` hypothesis.

`split` cuts at each leftmost non-overlapping match. -/

/-- Characters whose unescaped interpolation into the `_setup` pattern
leaves them a plain literal atom: everything except the regex
metacharacters.  (A few of the excluded characters, such as an unmatched
`]`, also happen to behave literally; excluding them only narrows the
theorems' scope, never misstates the source.) -/
def regexLiteralChar (c : Char) : Bool :=
  !(['.', '^', '$', '*', '+', '?', '{', '}', '[', ']', '\\', '|', '(', ')'].contains c)

/-- Literal-atom case: finish a separator match.  We are past the
opening newline and have already consumed `k` copies of `c`; greedily
extend the run, then require a closing newline.  Returns the text after
the match. -/
def matchRun (c : Char) (n : Nat) : Nat → List Char → Option (List Char)
  | _, [] => none
  | k, x :: xs =>
    if x = c then matchRun c n (k + 1) xs
    else if x = '\n' ∧ n ≤ k then some xs else none

/-- Literal-atom case: try to match the separator regex at the head of
the text. -/
def matchSep (c : Char) (n : Nat) : List Char → Option (List Char)
  | [] => none
  | x :: xs => if x = '\n' then matchRun c n 0 xs else none

/-- Leftmost separator match: piece before the match and text after it. -/
def findSplit (c : Char) (n : Nat) : List Char → Option (List Char × List Char)
  | [] => none
  | x :: xs =>
    match matchSep c n (x :: xs) with
    | some rest => some ([], rest)
    | none => (findSplit c n xs).map fun pr => (x :: pr.1, pr.2)

/-- Fuelled splitting loop of `re.split`. -/
def pySplitF (c : Char) (n : Nat) : Nat → List Char → List (List Char)
  | 0, l => [l]
  | fuel + 1, l =>
    match findSplit c n l with
    | none => [l]
    | some pr => pr.1 :: pySplitF c n fuel pr.2

/-- Model of `BasicDelimiter.split` for a delimiter character the regex
engine treats as a literal (see the section comment; `pySplitDot` models
the `'.'` case, where the source behaves differently). -/
def pySplit (c : Char) (n : Nat) (l : List Char) : List (List Char) :=
  pySplitF c n (l.length + 1) l

/-- Model of `BasicDelimiter.format`: `"\n" + char*n + "\n"` (plain
string concatenation, faithful for every character). -/
def delimFormat (c : Char) (n : Nat) : List Char :=
  '\n' :: (List.replicate n c ++ ['\n'])

/-- Whether the literal-atom separator pattern matches anywhere in `l`. -/
def hasPatB (c : Char) (n : Nat) (l : List Char) : Bool :=
  l.tails.any fun t => (matchSep c n t).isSome

/-- Wildcard case (`char = '.'`): finish a match of `\n.{n,}\n` — the
run element accepts any character except a newline, because the source
does not escape the interpolated character. -/
def matchRunDot (n : Nat) : Nat → List Char → Option (List Char)
  | _, [] => none
  | k, x :: xs =>
    if x ≠ '\n' then matchRunDot n (k + 1) xs
    else if n ≤ k then some xs else none

/-- Wildcard case: try to match `\n.{n,}\n` at the head of the text. -/
def matchSepDot (n : Nat) : List Char → Option (List Char)
  | [] => none
  | x :: xs => if x = '\n' then matchRunDot n 0 xs else none

/-- Wildcard case: leftmost match of `\n.{n,}\n`. -/
def findSplitDot (n : Nat) : List Char → Option (List Char × List Char)
  | [] => none
  | x :: xs =>
    match matchSepDot n (x :: xs) with
    | some rest => some ([], rest)
    | none => (findSplitDot n xs).map fun pr => (x :: pr.1, pr.2)

/-- Wildcard case: fuelled splitting loop of `re.split`. -/
def pySplitFDot (n : Nat) : Nat → List Char → List (List Char)
  | 0, l => [l]
  | fuel + 1, l =>
    match findSplitDot n l with
    | none => [l]
    | some pr => pr.1 :: pySplitFDot n fuel pr.2

/-- Model of `BasicDelimiter('.', n).split`: the compiled pattern is
`\n.{n,}\n`, so any newline-framed stretch of at least `n` non-newline
characters is a separator, whether or not it contains a `'.'`. -/
def pySplitDot (n : Nat) (l : List Char) : List (List Char) :=
  pySplitFDot n (l.length + 1) l

/-! ### PromptComponentFormatter (`prompt_engine.py`, lines 10-105) -/

/-- Python `str.title()` (ASCII): a letter is uppercased when the
previous character is not a letter, lowercased otherwise. -/
def titleAux : Bool → List Char → List Char
  | _, [] => []
  | prevAlpha, x :: xs =>
    (if x.isAlpha then (if prevAlpha then x.toLower else x.toUpper) else x)
      :: titleAux x.isAlpha xs

/-- Model of `format_key(key) = f"{key.title()}:"` (`prompt_engine.py`, line 10). -/
def fmtKey (k : Key) : List Char := titleAux false k ++ [':']

/-- A per-field data converter, reduced to its `format`/`parse` capability
over textual values (`DataConverter` interface in `data_converters.py`). -/
structure Conv where
  format : List Char → List Char
  parse : List Char → List Char

/-- Model of `StringConverter` (`data_converters.py`, lines 55-64). -/
def strConv (newlines indent : Nat) : Conv where
  format v := List.replicate newlines '\n' ++ List.replicate indent ' ' ++ v
  parse s := pyStrip s

/-- Model of `PromptComponentFormatter._format_dict`: iterate the record in its own
insertion order, skip fields without an assigned converter, emit
`format_key(key) + converter.format(value)`, join with a blank line. -/
def formatDict (convs : List (Key × Conv)) (data : List (Key × List Char)) : List Char :=
  joinSep ['\n', '\n']
    (data.filterMap fun kv => (alookup kv.1 convs).map fun cv => fmtKey kv.1 ++ cv.format kv.2)

/-- Whether some field of `data` has an assigned converter (so
`_format_dict` emits at least one section for it). -/
def hasSection (convs : List (Key × Conv)) (data : List (Key × List Char)) : Bool :=
  data.any fun kv => (alookup kv.1 convs).isSome

/-- Failure modes of `format_query`: empty query (Python `IndexError` on
`[-1]`), last key not a converter key (`ValueError` from `list.index`),
and no following key (`IndexError` on `keys[i+1]`; the spec's
`InvalidQueryError`). -/
inductive QErr where
  | empty
  | notFound
  | noNext
deriving DecidableEq

/-- Model of `PromptComponentFormatter.format_query` (`prompt_engine.py`, 34-46). -/
def formatQuery (convs : List (Key × Conv)) (query : List (Key × List Char)) :
    Except QErr (List Char) :=
  match query.getLast? with
  | none => .error .empty
  | some (k, _) =>
    let keys := convs.map Prod.fst
    match idxOf? k keys with
    | none => .error .notFound
    | some i =>
      match keys.get? (i + 1) with
      | none => .error .noNext
      | some nk => .ok (formatDict convs query ++ ['\n', '\n'] ++ fmtKey nk)

/-- Scan for `'\n'` immediately followed by the header `h`; `i` is the
index of the character currently at the head of the scanned tail.  The
span matches Python's `re.search("(^|\n)H", text).span()`: it starts at
the newline and ends after the header. -/
def findNl (h : List Char) : Nat → List Char → Option (Nat × Nat)
  | _, [] => none
  | i, x :: xs =>
    if x = '\n' ∧ lStarts h xs = true then some (i, i + 1 + h.length)
    else findNl h (i + 1) xs

/-- Leftmost match of `re.search(f"(^|\n){re.escape(h)}", text)`:
either `h` is a prefix of the whole text, or `h` directly follows a
newline (`prompt_engine.py`, line 77). -/
def findHeader (h text : List Char) : Option (Nat × Nat) :=
  if lStarts h text = true then some (0, h.length) else findNl h 0 text

/-- A resolved boundary: match start, match end, field key. -/
abbrev Triple := Nat × Nat × Key

/-- Python string comparison (code-point lexicographic). -/
def strLtB : List Char → List Char → Bool
  | [], [] => false
  | [], _ :: _ => true
  | _ :: _, [] => false
  | a :: as, b :: bs => if a.val < b.val then true else if b.val < a.val then false else strLtB as bs

/-- Strict lexicographic order on `(start, end, key)` tuples, as Python
compares them in `parts.sort()`. -/
def tripleLtB (a b : Triple) : Bool :=
  if a.1 < b.1 then true
  else if b.1 < a.1 then false
  else if a.2.1 < b.2.1 then true
  else if b.2.1 < a.2.1 then false
  else strLtB a.2.2 b.2.2

/-- Insert into a sorted list (ascending). -/
def insertT (x : Triple) : List Triple → List Triple
  | [] => [x]
  | y :: ys => if tripleLtB y x then y :: insertT x ys else x :: y :: ys

/-- Model of `parts.sort()`: ascending tuple sort (ties cannot occur: each key is
searched once, so keys in `parts` are distinct). -/
def sortTriples (l : List Triple) : List Triple := l.foldr insertT []

/-- Step 1 of `parse_result`: one header search per declared field, in
converter order, keeping the spans of the fields that were found. -/
def prFound (keys : List Key) (text : List Char) : List Triple :=
  keys.filterMap fun k => (findHeader (fmtKey k) text).map fun se => (se.1, se.2, k)

/-- Step 3 of `parse_result` (`prompt_engine.py`, lines 87-90): if the
first resolved field is not the first declared field and its match does
not start at position 0, prepend a zero-length boundary for the field
immediately preceding it in declared order. -/
def prParts (keys : List Key) (sorted : List Triple) : List Triple :=
  match sorted with
  | [] => []
  | first :: _ =>
    if idxOfK first.2.2 keys ≠ 0 ∧ first.1 ≠ 0 then
      (0, 0, keys.getD (idxOfK first.2.2 keys - 1) []) :: sorted
    else sorted

/-- Consecutive pairs, Python `zip(parts, parts[1:])`. -/
def consecPairs {α : Type} : List α → List (α × α)
  | [] => []
  | a :: rest =>
    match rest with
    | [] => []
    | b :: _ => (a, b) :: consecPairs rest

/-- Raw section of a middle field: `result[end:next_start]`, stripped;
blank sections parse to `None`, otherwise the field's converter parses
the text.  (`converters[key]` cannot fail in the source; the model's
`alookup` returns `none` only in that unreachable case.) -/
def secVal (convs : List (Key × Conv)) (text : List Char) (k : Key) (lo hi : Nat) :
    Option (List Char) :=
  let part := pyStrip ((text.drop lo).take (hi - lo))
  if part.isEmpty then none else (alookup k convs).map fun cv => cv.parse part

/-- Raw section of the last resolved field: `result[end:]`. -/
def secValEnd (convs : List (Key × Conv)) (text : List Char) (k : Key) (lo : Nat) :
    Option (List Char) :=
  let part := pyStrip (text.drop lo)
  if part.isEmpty then none else (alookup k convs).map fun cv => cv.parse part

/-- The sequence of `parsed_parts[key] = ...` assignments made by the two
final loops of `parse_result`, in execution order. -/
def prWrites (convs : List (Key × Conv)) (text : List Char) (parts : List Triple) :
    List (Key × Option (List Char)) :=
  ((consecPairs parts).map fun pq => (pq.1.2.2, secVal convs text pq.1.2.2 pq.1.2.1 pq.2.1))
    ++ (match parts.getLast? with
        | some t => [(t.2.2, secValEnd convs text t.2.2 t.2.1)]
        | none => [])

/-- Final value of a field: the last assignment wins (Python dict
update); a field never assigned was set to `None` in the search loop. -/
def finalVal (k : Key) (ws : List (Key × Option (List Char))) : Option (List Char) :=
  ws.foldl (fun acc w => if w.1 = k then w.2 else acc) none

/-- Model of `PromptComponentFormatter.parse_result` (`prompt_engine.py`, 64-105).
The result dictionary is modelled as an association list giving each
declared field its final value; with no resolved field at all the source
raises `IndexError` at `parts[0]`, modelled as `.error ()`. -/
def parseResult (convs : List (Key × Conv)) (input : List Char) :
    Except Unit (List (Key × Option (List Char))) :=
  let keys := convs.map Prod.fst
  let text := pyStrip input
  let sorted := sortTriples (prFound keys text)
  match sorted with
  | [] => .error ()
  | _ :: _ =>
    .ok (keys.map fun k => (k, finalVal k (prWrites convs text (prParts keys sorted))))

/-! ### LineTemplateConverter (`data_converters.py`, lines 126-215) -/

/-- Python regex `\w` (ASCII): letters, digits, underscore. -/
def isWordCh (c : Char) : Bool := c.isAlphanum || c == '_'

/-- Python regex `[a-zA-Z0-9]` used by the `spaceless` substitution. -/
def isAlnumCh (c : Char) : Bool := c.isAlphanum

/-- Model of `re.split(r"(\w+)", template)`: the alternating list
`[gap0, word1, gap1, ..., wordK, gapK]` (gaps may be empty, words are
maximal `\w` runs).  Fuelled; `templ.length + 1` fuel always suffices. -/
def lexTemplateF : Nat → List Char → List (List Char)
  | 0, l => [l]
  | fuel + 1, l =>
    let g := l.takeWhile fun c => !isWordCh c
    let r := l.dropWhile fun c => !isWordCh c
    match r with
    | [] => [g]
    | _ :: _ => g :: r.takeWhile isWordCh :: lexTemplateF fuel (r.dropWhile isWordCh)

/-- Model of `re.split(r"(\w+)", template)` with enough fuel. -/
def lexTemplate (l : List Char) : List (List Char) := lexTemplateF (l.length + 1) l

/-- The words of the alternating list: `re.findall(r"(\w+)", template)`,
i.e. `LineTemplateConverter._extract_keys`. -/
def wordsOf : List (List Char) → List (List Char)
  | _ :: w :: rest => w :: wordsOf rest
  | _ => []

/-- The gaps of the alternating list (even positions). -/
def gapsOf : List (List Char) → List (List Char)
  | [] => []
  | [g] => [g]
  | g :: _ :: rest => g :: gapsOf rest

/-- Whether a gap is empty after stripping. -/
def blankB (g : List Char) : Bool := (pyStrip g).isEmpty

/-- The ambiguity loop of `_validate_template` (lines 173-176): walking
`parts[0], parts[2], ...`, report the key at `parts[i+1]` whenever the
gaps `parts[i]` and `parts[i+2]` are both blank. -/
def ambAux (prevGap : List Char) : List (List Char) → Option (List Char)
  | w :: g :: rest =>
    if blankB prevGap && blankB g then some w else ambAux g rest
  | _ => none

/-- Offending key of the ambiguity check, if any. -/
def ambiguousKey : List (List Char) → Option (List Char)
  | [] => none
  | g :: rest => ambAux g rest

/-- Model of `re.sub(r"\s*([a-zA-Z0-9]+)\s*", r"\1", template)`: delete the
whitespace adjacent to every alphanumeric run.  Fuelled scan modelling
`re.sub`'s leftmost non-overlapping matching. -/
def spacelessF : Nat → List Char → List Char
  | 0, l => l
  | _ + 1, [] => []
  | fuel + 1, l@(x :: xs) =>
    if isAlnumCh x then
      l.takeWhile isAlnumCh ++ spacelessF fuel ((l.dropWhile isAlnumCh).dropWhile pyIsSpace)
    else if pyIsSpace x then
      match l.dropWhile pyIsSpace with
      | y :: ys => if isAlnumCh y then spacelessF fuel (y :: ys) else x :: spacelessF fuel xs
      | [] => x :: spacelessF fuel xs
    else x :: spacelessF fuel xs

/-- The `spaceless` template with enough fuel. -/
def spaceless (l : List Char) : List Char := spacelessF (l.length + 1) l

/-- Construction-time failures of `LineTemplateConverter.__init__`:
`ambiguous` is the `ValueError("Ambiguous template near key ...")`;
`complexMissing` the `ValueError("Complex key ... not found")`;
`splitBad` the (unreachable) `IndexError` on `pieces[1]` when a key does
not occur in the spaceless template; `compileDup` the `re.error` that
`re.compile` raises on duplicate group names when the template repeats a
key. -/
inductive LTCErr where
  | ambiguous (key : List Char)
  | complexMissing
  | splitBad
  | compileDup
deriving DecidableEq

/-- Value-pattern kind of one field: a character class excluding the
neighbouring boundary characters, or the non-greedy `.*?` of the complex
key. -/
inductive GrpKind where
  | excl (chars : List Char)
  | anyLazy
deriving DecidableEq

/-- One element of the compiled anchored pattern: a literal character, a
greedy `[^...]+` named group, or the lazy `.*?` group of the complex
key. -/
inductive PatElem where
  | lit (c : Char)
  | grp (k : Key) (excl : List Char)
  | grpAny (k : Key)
deriving DecidableEq

/-- Derive a key's exclusion characters (lines 183-190): split the
spaceless template at the key; take the last character of the text
before it and the first character of the text after it. -/
def exclOf (sp key : List Char) : Except LTCErr (List Char) :=
  match splitOn key sp with
  | p0 :: p1 :: _ =>
    .ok ((match p0.getLast? with | some a => [a] | none => []) ++
         (match p1.head? with | some b => [b] | none => []))
  | _ => .error .splitBad

/-- Substitute each key occurrence in the escaped spaceless template by
its named group (lines 191-193).  The source performs sequential
`str.replace` per key; for templates whose keys are distinct and do not
occur in each other's replacement text this equals a single left-to-right
scan that substitutes the first matching key at each position, which is
what is modelled here (other templates crash `re.compile` in the source
and are rejected by the `compileDup` check below). -/
def buildPatF (keys : List Key) (kinds : List (Key × GrpKind)) :
    Nat → List Char → List PatElem
  | 0, l => l.map .lit
  | _ + 1, [] => []
  | fuel + 1, l@(x :: xs) =>
    match keys.find? (fun k => !k.isEmpty && lStarts k l) with
    | some k =>
      (match alookup k kinds with
       | some (.excl e) => .grp k e
       | some .anyLazy => .grpAny k
       | none => .grp k []) :: buildPatF keys kinds fuel (l.drop k.length)
    | none => .lit x :: buildPatF keys kinds fuel xs

/-- Map a fallible function over a list, stopping at the first error
(Python evaluates such loops left to right and raises at the first
failure). -/
def mapExcept {ε α β : Type} (f : α → Except ε β) : List α → Except ε (List β)
  | [] => .ok []
  | x :: xs =>
    match f x with
    | .error e => .error e
    | .ok y => (mapExcept f xs).map fun ys => y :: ys

/-- Whether an `Except` holds a success value. -/
def isOkE {ε α : Type} : Except ε α → Bool
  | .ok _ => true
  | .error _ => false

/-- A constructed `LineTemplateConverter` instance: its configuration
fields plus the derived `keys` and compiled pattern. -/
structure LTCInst where
  template : List Char
  complexKey : Option Key
  indent : Nat
  keys : List Key
  pat : List PatElem
deriving DecidableEq

/-- Pattern construction after the validation checks passed. -/
def ltcBuild (t : List Char) (keys : List Key) (ck : Option Key) (ind : Nat) :
    Except LTCErr LTCInst :=
  (mapExcept (fun k =>
      if ck = some k then .ok (k, GrpKind.anyLazy)
      else (exclOf (spaceless t) k).map fun e => (k, GrpKind.excl e)) keys).bind
    fun kinds =>
      if keys.Nodup then
        .ok ⟨t, ck, ind, keys,
          buildPatF keys kinds ((spaceless t).length + 1) (spaceless t)⟩
      else .error .compileDup

/-- Model of `LineTemplateConverter.__init__` + `_validate_template`
(lines 159-194): extract keys, check the complex key, run the ambiguity
loop, then derive the per-key patterns and compile. -/
def ltcInit (t : List Char) (ck : Option Key) (ind : Nat) : Except LTCErr LTCInst :=
  let parts := lexTemplate t
  let keys := wordsOf parts
  match ck with
  | some k =>
    if k ≠ [] ∧ k ∉ keys then .error .complexMissing
    else
      match ambiguousKey parts with
      | some w => .error (.ambiguous w)
      | none => ltcBuild t keys ck ind
  | none =>
    match ambiguousKey parts with
    | some w => .error (.ambiguous w)
    | none => ltcBuild t keys ck ind

/-- Total accessor for a constructed instance (claims only apply it to
templates whose construction succeeds). -/
def ltcInitD (t : List Char) (ck : Option Key) (ind : Nat) : LTCInst :=
  match ltcInit t ck ind with
  | .ok i => i
  | .error _ => ⟨t, ck, ind, [], []⟩

/-- Python set equality of key lists. -/
def sameKeySetB (a b : List Key) : Bool :=
  (a.all fun k => decide (k ∈ b)) && (b.all fun k => decide (k ∈ a))

/-- The `pattern.sub` of `_format_line` (lines 199-201): scan the
template; at each position substitute the first key (in extraction
order) that matches, using the record's value for that key. -/
def subKeysF (keys : List Key) (data : List (Key × List Char)) :
    Nat → List Char → List Char
  | 0, l => l
  | _ + 1, [] => []
  | fuel + 1, l@(x :: xs) =>
    match keys.find? (fun k => !k.isEmpty && lStarts k l) with
    | some k => (alookup k data).getD [] ++ subKeysF keys data fuel (l.drop k.length)
    | none => x :: subKeysF keys data fuel xs

/-- Model of `LineTemplateConverter._format_line` (lines 196-201): the record's
key set must equal the template's key set exactly, else
`ValueError("Input data keys do not match template keys")`. -/
def ltcFormatLine (inst : LTCInst) (data : List (Key × List Char)) :
    Except Unit (List Char) :=
  if sameKeySetB inst.keys (data.map Prod.fst) then
    .ok (subKeysF inst.keys data (inst.template.length + 1) inst.template)
  else .error ()

/-- Model of `LineTemplateConverter.format` (lines 211-212): a leading newline,
then one indented line per record. -/
def ltcFormat (inst : LTCInst) (data : List (List (Key × List Char))) :
    Except Unit (List Char) :=
  (mapExcept (ltcFormatLine inst) data).map fun lines =>
    '\n' :: joinSep ['\n'] (lines.map fun s => List.replicate inst.indent ' ' ++ s)

/-- Backtracking matcher for the compiled anchored pattern, equivalent to
Python's engine on these patterns: `[^X]+` groups are greedy (longest run
first, backtracking shorter), `.*?` is lazy and `.` excludes newline.
Fuel `pat.length + 1` always suffices (one unit per pattern element). -/
def matchPatF : Nat → List PatElem → List Char → Option (List (Key × List Char))
  | 0, _, _ => none
  | _ + 1, [], xs => if xs.isEmpty then some [] else none
  | _ + 1, .lit _ :: _, [] => none
  | fuel + 1, .lit c :: ps, x :: xs => if x = c then matchPatF fuel ps xs else none
  | fuel + 1, .grp k excl :: ps, xs =>
    let run := (xs.takeWhile fun a => !excl.contains a).length
    ((List.range run).reverse.map (· + 1)).findSome? fun j =>
      (matchPatF fuel ps (xs.drop j)).map fun caps => (k, xs.take j) :: caps
  | fuel + 1, .grpAny k :: ps, xs =>
    let run := (xs.takeWhile fun a => a != '\n').length
    (List.range (run + 1)).findSome? fun j =>
      (matchPatF fuel ps (xs.drop j)).map fun caps => (k, xs.take j) :: caps

/-- Model of `LineTemplateConverter._parse_line` (lines 203-209): match the
anchored pattern, strip each captured group;
`ValueError("Formatted string does not match template")` on failure. -/
def ltcParseLine (inst : LTCInst) (line : List Char) :
    Except Unit (List (Key × List Char)) :=
  match matchPatF (inst.pat.length + 1) inst.pat line with
  | none => .error ()
  | some caps => .ok (inst.keys.map fun k => (k, pyStrip ((alookup k caps).getD [])))

/-- Model of `LineTemplateConverter.parse` (lines 214-215): split on newlines and
parse every line stripped — including any empty first piece produced by
`format`'s leading newline. -/
def ltcParse (inst : LTCInst) (s : List Char) :
    Except Unit (List (List (Key × List Char))) :=
  mapExcept (fun line => ltcParseLine inst (pyStrip line)) (splitOn ['\n'] s)

/-- Composition `parse ∘ format` on a single record, the round trip of claim C1. -/
def ltcRoundTrip (t : List Char) (rec : List (Key × List Char)) :
    Except Unit (List (List (Key × List Char))) :=
  (ltcFormat (ltcInitD t none 4) [rec]).bind fun s => ltcParse (ltcInitD t none 4) s

/-- The spec's reading of template ambiguity, modelled from its words:
"two adjacent field tokens with no literal boundary between them", i.e.
some interior gap of the template is whitespace-only. -/
def specAdjacentAmbiguousB (t : List Char) : Bool :=
  let parts := lexTemplate t
  let ws := wordsOf parts
  let gs := gapsOf parts
  (List.range (ws.length - 1)).any fun j => blankB (gs.getD (j + 1) [])

/-! ### Stateful method wrappers (claim C9)

Each Python method is translated as a function from the instance's field
record and the argument to the result paired with the instance fields
after the call; none of the method bodies assigns to `self`, so each
wrapper returns the fields unchanged. -/

/-- Model of `PromptComponentFormatter.format_example`, with explicit state. -/
def pcfFormatExampleS (convs : List (Key × Conv)) (ex : List (Key × List Char)) :
    List Char × List (Key × Conv) :=
  (formatDict convs ex, convs)

/-- Model of `PromptComponentFormatter.parse_result`, with explicit state. -/
def pcfParseResultS (convs : List (Key × Conv)) (r : List Char) :
    Except Unit (List (Key × Option (List Char))) × List (Key × Conv) :=
  (parseResult convs r, convs)

/-- Model of `LineTemplateConverter.format`, with explicit state. -/
def ltcFormatS (inst : LTCInst) (d : List (List (Key × List Char))) :
    Except Unit (List Char) × LTCInst :=
  (ltcFormat inst d, inst)

/-- Model of `LineTemplateConverter.parse`, with explicit state. -/
def ltcParseS (inst : LTCInst) (s : List Char) :
    Except Unit (List (List (Key × List Char))) × LTCInst :=
  (ltcParse inst s, inst)

/-- Model of `BasicDelimiter.split`, with explicit state `(char, n)`. -/
def delimSplitS (c : Char) (n : Nat) (t : List Char) :
    List (List Char) × (Char × Nat) :=
  (pySplit c n t, (c, n))

/-- Model of `BasicDelimiter.format`, with explicit state `(char, n)`. -/
def delimFormatS (c : Char) (n : Nat) : List Char × (Char × Nat) :=
  (delimFormat c n, (c, n))

instance {ε α : Type} [DecidableEq ε] [DecidableEq α] : DecidableEq (Except ε α) :=
  fun x y =>
    match x, y with
    | .ok a, .ok b =>
      if h : a = b then .isTrue (by rw [h]) else .isFalse (by intro he; cases he; exact h rfl)
    | .error a, .error b =>
      if h : a = b then .isTrue (by rw [h]) else .isFalse (by intro he; cases he; exact h rfl)
    | .ok _, .error _ => .isFalse (by intro he; cases he)
    | .error _, .ok _ => .isFalse (by intro he; cases he)

/-! ## Lemmas and claim theorems -/

/-! ### Delimiter lemmas (claim C8) -/
/-! ### Delimiter lemmas (claim C8) -/

theorem matchRun_cons {c : Char} {n k : Nat} {x : Char} {xs : List Char} :
    matchRun c n k (x :: xs) =
      if x = c then matchRun c n (k + 1) xs
      else if x = '\n' ∧ n ≤ k then some xs else none := rfl

theorem matchRun_nil {c : Char} {n k : Nat} : matchRun c n k [] = none := rfl

theorem matchSep_cons {c : Char} {n : Nat} {x : Char} {xs : List Char} :
    matchSep c n (x :: xs) = if x = '\n' then matchRun c n 0 xs else none := rfl

theorem findSplit_cons {c : Char} {n : Nat} {x : Char} {xs : List Char} :
    findSplit c n (x :: xs) =
      match matchSep c n (x :: xs) with
      | some rest => some ([], rest)
      | none => (findSplit c n xs).map fun pr => (x :: pr.1, pr.2) := rfl

theorem matchRun_append_nl {c : Char} {n : Nat} (hc : c ≠ '\n') :
    ∀ (t : List Char) (k : Nat) (rest : List Char),
      matchRun c n k (t ++ ['\n']) = none →
      matchRun c n k (t ++ '\n' :: rest) = none := by
  intro t
  induction t with
  | nil =>
    intro k rest h
    have hx : ¬('\n' = c) := fun he => hc he.symm
    rw [List.nil_append, matchRun_cons, if_neg hx] at h ⊢
    by_cases hk : n ≤ k
    · rw [if_pos ⟨rfl, hk⟩] at h; cases h
    · rw [if_neg fun hh => hk hh.2]
  | cons y t ih =>
    intro k rest h
    rw [List.cons_append, matchRun_cons] at h ⊢
    by_cases hy : y = c
    · rw [if_pos hy] at h ⊢
      exact ih (k + 1) rest h
    · rw [if_neg hy] at h ⊢
      by_cases hy2 : y = '\n' ∧ n ≤ k
      · rw [if_pos hy2] at h; cases h
      · rw [if_neg hy2]

theorem matchSep_append_nl {c : Char} {n : Nat} (hc : c ≠ '\n')
    (x : Char) (s rest : List Char)
    (h : matchSep c n ((x :: s) ++ ['\n']) = none) :
    matchSep c n ((x :: s) ++ '\n' :: rest) = none := by
  rw [List.cons_append, matchSep_cons] at h ⊢
  by_cases hx : x = '\n'
  · rw [if_pos hx] at h ⊢
    exact matchRun_append_nl hc s 0 rest h
  · rw [if_neg hx]

theorem matchRun_replicate {c : Char} {n : Nat} (hc : c ≠ '\n') :
    ∀ (j k : Nat) (tail : List Char),
      matchRun c n k (List.replicate j c ++ '\n' :: tail) =
        if n ≤ k + j then some tail else none := by
  intro j
  induction j with
  | zero =>
    intro k tail
    have hx : ¬('\n' = c) := fun he => hc he.symm
    rw [List.replicate_zero, List.nil_append, matchRun_cons, if_neg hx]
    by_cases hk : n ≤ k
    · rw [if_pos ⟨rfl, hk⟩, if_pos (by omega)]
    · rw [if_neg fun hh => hk hh.2, if_neg (by omega)]
  | succ j ih =>
    intro k tail
    rw [List.replicate_succ, List.cons_append, matchRun_cons, if_pos rfl, ih (k + 1) tail]
    by_cases hk : n ≤ k + 1 + j
    · rw [if_pos hk, if_pos (by omega)]
    · rw [if_neg hk, if_neg (by omega)]

theorem findSplit_sep {c : Char} {n m : Nat} (hc : c ≠ '\n') (hm : n ≤ m)
    (b2 : List Char) :
    ∀ b1 : List Char,
      (∀ s : List Char, s <:+ b1 → s ≠ [] → matchSep c n (s ++ ['\n']) = none) →
      findSplit c n (b1 ++ '\n' :: (List.replicate m c ++ '\n' :: b2)) =
        some (b1, b2) := by
  intro b1
  induction b1 with
  | nil =>
    intro _
    have hrun := matchRun_replicate (c := c) (n := n) hc m 0 b2
    rw [if_pos (show n ≤ 0 + m by omega)] at hrun
    rw [List.nil_append, findSplit_cons, matchSep_cons, if_pos rfl, hrun]
  | cons x xs ih =>
    intro hs
    have hnone : matchSep c n ((x :: xs) ++ '\n' :: (List.replicate m c ++ '\n' :: b2)) = none := by
      refine matchSep_append_nl hc x xs _ ?_
      exact hs (x :: xs) List.suffix_rfl (by simp)
    have ih' := ih fun s hsuf hne => hs s (hsuf.trans (List.suffix_cons x xs)) hne
    rw [List.cons_append, findSplit_cons]
    rw [List.cons_append] at hnone
    rw [hnone, ih']
    rfl

theorem findSplit_none_of_hasPat {c : Char} {n : Nat} :
    ∀ l : List Char, hasPatB c n l = false → findSplit c n l = none := by
  intro l
  induction l with
  | nil => intro _; rfl
  | cons x xs ih =>
    intro h
    simp only [hasPatB, List.tails, List.any_cons, Bool.or_eq_false_iff] at h
    obtain ⟨h1, h2⟩ := h
    have hsep : matchSep c n (x :: xs) = none := by
      cases he : matchSep c n (x :: xs) with
      | none => rfl
      | some r => rw [he] at h1; cases h1
    have hxs : findSplit c n xs = none := ih (by simpa [hasPatB, List.tails] using h2)
    rw [findSplit_cons, hsep, hxs]
    rfl

theorem pySplitF_nomatch {c : Char} {n : Nat} {l : List Char} {f : Nat}
    (hf : 1 ≤ f) (h : findSplit c n l = none) : pySplitF c n f l = [l] := by
  cases f with
  | zero => omega
  | succ f => simp only [pySplitF, h]

theorem hasPat_suffix_none {c : Char} {n : Nat} {b1 : List Char}
    (h1 : hasPatB c n (b1 ++ ['\n']) = false) :
    ∀ s : List Char, s <:+ b1 → s ≠ [] → matchSep c n (s ++ ['\n']) = none := by
  intro s hs _
  have hmem : s ++ ['\n'] ∈ (b1 ++ ['\n']).tails := by
    rw [List.mem_tails]
    obtain ⟨t, ht⟩ := hs
    exact ⟨t, by rw [← ht, List.append_assoc]⟩
  simp only [hasPatB, List.any_eq_false] at h1
  have h2 := h1 _ hmem
  cases he : matchSep c n (s ++ ['\n']) with
  | none => rfl
  | some r => rw [he] at h2; simp at h2

theorem hasPat_of_cons {c : Char} {n : Nat} {x : Char} {l : List Char}
    (h : hasPatB c n (x :: l) = false) : hasPatB c n l = false := by
  simp only [hasPatB, List.tails, List.any_cons, Bool.or_eq_false_iff] at h
  simpa [hasPatB, List.tails] using h.2

theorem pySplit_sep {c : Char} {n m : Nat} {b1 b2 : List Char}
    (hc : c ≠ '\n') (hm : n ≤ m)
    (h1 : hasPatB c n (b1 ++ ['\n']) = false)
    (h2 : hasPatB c n ('\n' :: b2) = false) :
    pySplit c n (b1 ++ '\n' :: (List.replicate m c ++ '\n' :: b2)) = [b1, b2] := by
  have hfind := findSplit_sep hc hm b2 b1 (hasPat_suffix_none h1)
  have hb2pat : hasPatB c n b2 = false := hasPat_of_cons h2
  have hb2 : findSplit c n b2 = none := findSplit_none_of_hasPat b2 hb2pat
  unfold pySplit
  have hlen : (b1 ++ '\n' :: (List.replicate m c ++ '\n' :: b2)).length =
      b1.length + m + b2.length + 2 := by
    simp [List.length_append]; omega
  rw [hlen]
  simp only [pySplitF, hfind]
  rw [hb2]

/-- C8 counterexample: the claim quantifies over every delimiter
character, but the source interpolates the character unescaped into
`re.compile(f"\n{char}{{n,}}\n")`.  For `char = '.'` and `n = 2` the
run element of the compiled pattern is the regex wildcard: `format()`
still returns `"\n..\n"`, yet `split` cuts `"x\nabc\ny"` — a text that
contains no `'.'` at all, so in particular every run of `'.'` in it is
shorter than `n` — into `["x", "y"]` instead of leaving it whole. -/
theorem c8_counterexample :
    delimFormat '.' 2 = ("\n..\n".toList) ∧
    '.' ∉ ("x\nabc\ny".toList) ∧
    pySplitDot 2 ("x\nabc\ny".toList) = [("x".toList), ("y".toList)] ∧
    pySplitDot 2 ("x\nabc\ny".toList) ≠ [("x\nabc\ny".toList)] := by
  refine ⟨by decide, by decide, by decide, by decide⟩

/-- C8 amended: for a `BasicDelimiter` whose character `c` is one the
regex engine treats as a literal atom (not one of the metacharacters the
source fails to escape) and minimum run length `n`: `format()` returns
`c` repeated exactly `n` times framed by newlines; `split` cuts two
blocks joined by `format()`'s output, and still cuts when the separator
run is lengthened to any `m ≥ n` repetitions; and a text containing no
newline-framed run of at least `n` copies of `c` (in particular, one
whose runs of `c` are all shorter than `n`) is never split. -/
theorem c8_delimiter_asymmetric (c : Char) (n m : Nat) (b1 b2 : List Char)
    (_hlit : regexLiteralChar c = true) (hc : c ≠ '\n') (hm : n ≤ m)
    (h1 : hasPatB c n (b1 ++ ['\n']) = false)
    (h2 : hasPatB c n ('\n' :: b2) = false) :
    delimFormat c n = '\n' :: (List.replicate n c ++ ['\n']) ∧
    pySplit c n (b1 ++ delimFormat c n ++ b2) = [b1, b2] ∧
    pySplit c n (b1 ++ '\n' :: (List.replicate m c ++ '\n' :: b2)) = [b1, b2] ∧
    (∀ l : List Char, hasPatB c n l = false → pySplit c n l = [l]) := by
  refine ⟨rfl, ?_, pySplit_sep hc hm h1 h2, ?_⟩
  · have heq : b1 ++ delimFormat c n ++ b2 =
        b1 ++ '\n' :: (List.replicate n c ++ '\n' :: b2) := by
      simp [delimFormat]
    rw [heq]
    exact pySplit_sep hc (Nat.le_refl n) h1 h2
  · intro l hl
    unfold pySplit
    exact pySplitF_nomatch (by omega) (findSplit_none_of_hasPat l hl)

/-- Witness for C8 at `c = '='`, `n = 2`, `m = 3`, blocks `"ab"`, `"cd"`. -/
theorem c8_delimiter_asymmetric_witness :
    pySplit '=' 2 ("ab".toList ++ '\n' :: (List.replicate 3 '=' ++ '\n' :: "cd".toList)) =
      ["ab".toList, "cd".toList] :=
  (c8_delimiter_asymmetric '=' 2 3 ("ab".toList) "cd".toList (by decide) (by decide)
    (by decide) (by decide) (by decide)).2.2.1

/-- C9: every modelled `format`/`parse`/`split` call is a pure function
of the constructed instance and the argument: repeating a call yields an
identical result, and the instance state returned by each stateful
wrapper is unchanged, so no call depends on prior calls. -/
theorem c9_stateless_deterministic (convs : List (Key × Conv))
    (ex : List (Key × List Char)) (r : List Char) (inst : LTCInst)
    (d : List (List (Key × List Char))) (s : List Char)
    (c : Char) (n : Nat) (t : List Char) :
    (pcfFormatExampleS convs ex).2 = convs ∧
    (pcfFormatExampleS (pcfFormatExampleS convs ex).2 ex).1 = (pcfFormatExampleS convs ex).1 ∧
    (pcfParseResultS convs r).2 = convs ∧
    (pcfParseResultS (pcfParseResultS convs r).2 r).1 = (pcfParseResultS convs r).1 ∧
    (ltcFormatS inst d).2 = inst ∧
    (ltcFormatS (ltcFormatS inst d).2 d).1 = (ltcFormatS inst d).1 ∧
    (ltcParseS inst s).2 = inst ∧
    (ltcParseS (ltcParseS inst s).2 s).1 = (ltcParseS inst s).1 ∧
    (delimSplitS c n t).2 = (c, n) ∧
    (delimSplitS (delimSplitS c n t).2.1 (delimSplitS c n t).2.2 t).1 = (delimSplitS c n t).1 ∧
    (delimFormatS c n).2 = (c, n) :=
  ⟨rfl, rfl, rfl, rfl, rfl, rfl, rfl, rfl, rfl, rfl, rfl⟩

/-! ### Block composer lemmas (claims C2, C3, C4, C6, C7) -/

theorem joinSep_pair {sep x y : List Char} {rest : List (List Char)} :
    joinSep sep (x :: y :: rest) = x ++ sep ++ joinSep sep (y :: rest) := rfl

theorem sections_empty_iff (convs : List (Key × Conv)) :
    ∀ d : List (Key × List Char),
      ((d.filterMap fun kv => (alookup kv.1 convs).map fun cv => fmtKey kv.1 ++ cv.format kv.2)
          = []) ↔ hasSection convs d = false := by
  intro d
  induction d with
  | nil => simp [hasSection]
  | cons kv rest ih =>
    cases hl : alookup kv.1 convs with
    | none => simp [hasSection, List.filterMap_cons, hl, List.any_cons]
    | some cv => simp [hasSection, List.filterMap_cons, hl, List.any_cons]

/-- C2 counterexample: with converter assignment `[a, b]` and the record
inserted in order `[b, a]`, `format_example` emits the `b` section first
— it follows the record's insertion order, not the converter-assignment
order the claim requires. -/
theorem c2_counterexample :
    formatDict [("a".toList, strConv 0 0), ("b".toList, strConv 0 0)]
        [("b".toList, "y".toList), ("a".toList, "x".toList)] =
      "B:y\n\nA:x".toList ∧
    "B:y\n\nA:x".toList ≠ "A:x\n\nB:y".toList := ⟨rfl, by decide⟩

/-- C2 amended: `format_example` emits one section per field of the
record, in the record's insertion order: a field with no assigned
converter is silently skipped, and a field with converter `cv` puts
`Header(field) ++ cv.format value` first, followed (after a blank line)
by the sections of the remaining fields, if any. -/
theorem c2_format_record_order (convs : List (Key × Conv)) (k : Key) (v : List Char)
    (d : List (Key × List Char)) :
    (alookup k convs = none → formatDict convs ((k, v) :: d) = formatDict convs d) ∧
    (∀ cv : Conv, alookup k convs = some cv →
      formatDict convs ((k, v) :: d) =
        (fmtKey k ++ cv.format v) ++
          (if hasSection convs d then '\n' :: '\n' :: formatDict convs d else [])) := by
  constructor
  · intro h
    simp [formatDict, List.filterMap_cons, h]
  · intro cv h
    simp only [formatDict, List.filterMap_cons, h, Option.map_some']
    by_cases hs : hasSection convs d = true
    · rw [if_pos hs]
      cases he : d.filterMap fun kv => (alookup kv.1 convs).map fun c => fmtKey kv.1 ++ c.format kv.2 with
      | nil =>
        rw [(sections_empty_iff convs d).mp he] at hs
        cases hs
      | cons y ys =>
        rw [joinSep_pair]
        simp [List.append_assoc]
    · rw [if_neg hs]
      have hs' : hasSection convs d = false := by
        cases hb : hasSection convs d with
        | false => rfl
        | true => rw [hb] at hs; cases hs rfl
      rw [(sections_empty_iff convs d).mpr hs']
      simp [joinSep]

/-- Witness for C2's amended theorem: with assignment `[a, b]` and record
`[(a, x), (b, y)]`, the `a` section is emitted first, followed by a
blank line and the remaining section. -/
theorem c2_format_record_order_witness :
    formatDict [("a".toList, strConv 0 0), ("b".toList, strConv 0 0)]
        (("a".toList, "x".toList) :: [("b".toList, "y".toList)]) =
      (fmtKey ("a".toList) ++ (strConv 0 0).format ("x".toList)) ++
        (if hasSection [("a".toList, strConv 0 0), ("b".toList, strConv 0 0)]
              [("b".toList, "y".toList)]
         then '\n' :: '\n' ::
           formatDict [("a".toList, strConv 0 0), ("b".toList, strConv 0 0)]
             [("b".toList, "y".toList)]
         else []) :=
  (c2_format_record_order [("a".toList, strConv 0 0), ("b".toList, strConv 0 0)]
      "a".toList ("x".toList) [("b".toList, "y".toList)]).2 (strConv 0 0) rfl

theorem mem_of_getLast {α : Type} : ∀ (l : List α) (a : α), l.getLast? = some a → a ∈ l := by
  intro l
  induction l with
  | nil => intro a h; cases h
  | cons x xs ih =>
    intro a h
    cases xs with
    | nil =>
      simp only [List.getLast?_singleton, Option.some_inj] at h
      simp [h]
    | cons y ys =>
      rw [List.getLast?_cons_cons] at h
      exact List.mem_cons_of_mem x (ih a h)

theorem idxOf_getLast (k : Key) :
    ∀ l : List Key, l.Nodup → l.getLast? = some k → idxOf? k l = some (l.length - 1) := by
  intro l
  induction l with
  | nil => intro _ h; cases h
  | cons x xs ih =>
    intro hnd hlast
    cases xs with
    | nil =>
      simp only [List.getLast?_singleton, Option.some_inj] at hlast
      simp [idxOf?, hlast]
    | cons y ys =>
      have hlast' : (y :: ys).getLast? = some k := by
        rwa [List.getLast?_cons_cons] at hlast
      have hk : k ∈ y :: ys := mem_of_getLast _ k hlast'
      have hx : x ∉ y :: ys := (List.nodup_cons.mp hnd).1
      have hxk : ¬(x = k) := fun he => hx (he ▸ hk)
      rw [idxOf?, if_neg hxk, ih (List.nodup_cons.mp hnd).2 hlast']
      simp only [Option.map_some', Option.some_inj, List.length_cons]
      omega

/-- C7: `format_query` fails whenever the last field present in the
partial record is already the last field of the converter assignment
(there is no following header to prompt with; the source raises
`IndexError` at `keys[i+1]`, the spec's `InvalidQueryError`). -/
theorem c7_format_query_exhausted (convs : List (Key × Conv))
    (query : List (Key × List Char)) (k : Key) (v : List Char)
    (hq : query.getLast? = some (k, v))
    (hlast : (convs.map Prod.fst).getLast? = some k)
    (hnd : (convs.map Prod.fst).Nodup) :
    formatQuery convs query = .error .noNext := by
  have hidx := idxOf_getLast k _ hnd hlast
  have hpos : 0 < (convs.map Prod.fst).length := by
    cases hc : convs.map Prod.fst with
    | nil => rw [hc] at hlast; cases hlast
    | cons a l => simp [hc]
  have hget : (convs.map Prod.fst).get? ((convs.map Prod.fst).length - 1 + 1) = none := by
    rw [show (convs.map Prod.fst).length - 1 + 1 = (convs.map Prod.fst).length from by omega]
    exact List.get?_eq_none.mpr (Nat.le_refl _)
  simp only [formatQuery, hq, hidx, hget]

/-- Witness for C7: assignment `[a, b]`, query ending with field `b`. -/
theorem c7_format_query_exhausted_witness :
    formatQuery [("a".toList, strConv 0 0), ("b".toList, strConv 0 0)]
        [("b".toList, "y".toList)] = .error .noNext :=
  c7_format_query_exhausted [("a".toList, strConv 0 0), ("b".toList, strConv 0 0)]
    [("b".toList, "y".toList)] "b".toList ("y".toList) rfl (by decide) (by decide)

theorem findNl_cons {h : List Char} {i : Nat} {x : Char} {xs : List Char} :
    findNl h i (x :: xs) =
      if x = '\n' ∧ lStarts h xs = true then some (i, i + 1 + h.length)
      else findNl h (i + 1) xs := rfl

theorem findNl_sound (h : List Char) :
    ∀ (l : List Char) (i s e : Nat), findNl h i l = some (s, e) →
      ∃ j, j < l.length ∧ s = i + j ∧ l.get? j = some '\n' ∧
        lStarts h (l.drop (j + 1)) = true ∧ e = s + 1 + h.length := by
  intro l
  induction l with
  | nil => intro i s e hf; cases hf
  | cons x xs ih =>
    intro i s e hf
    by_cases hx : x = '\n' ∧ lStarts h xs = true
    · rw [findNl_cons, if_pos hx] at hf
      rw [Option.some_inj, Prod.mk.injEq] at hf
      obtain ⟨hs, he⟩ := hf
      refine ⟨0, by simp, by omega, ?_, ?_, by omega⟩
      · rw [show (x :: xs).get? 0 = some x from rfl, hx.1]
      · rw [show (x :: xs).drop (0 + 1) = xs from rfl]
        exact hx.2
    · rw [findNl_cons, if_neg hx] at hf
      obtain ⟨j, hj, hs, hnl, hpre, he⟩ := ih (i + 1) s e hf
      refine ⟨j + 1, by simp; omega, by omega, ?_, ?_, he⟩
      · simpa using hnl
      · simpa using hpre

theorem findNl_none (h : List Char) :
    ∀ (l : List Char) (i : Nat),
      (∀ j, j < l.length → l.get? j = some '\n' → lStarts h (l.drop (j + 1)) = false) →
      findNl h i l = none := by
  intro l
  induction l with
  | nil => intro i _; rfl
  | cons x xs ih =>
    intro i hall
    rw [findNl_cons]
    by_cases hx : x = '\n' ∧ lStarts h xs = true
    · exfalso
      have := hall 0 (by simp) (by simp [hx.1])
      rw [show (x :: xs).drop (0 + 1) = xs from rfl] at this
      rw [hx.2] at this
      cases this
    · rw [if_neg hx]
      refine ih (i + 1) fun j hj hnl => ?_
      have := hall (j + 1) (by simp; omega) (by simpa using hnl)
      simpa using this

/-- C6: `parse_result`'s header search treats an occurrence of a field's
header as a boundary only at the very start of the text or immediately
after a newline: every reported span is so anchored, and if the header
has no anchored occurrence at all (even if it occurs mid-line), the
search reports nothing. -/
theorem c6_header_boundary_anchored (h text : List Char) :
    (∀ s e : Nat, findHeader h text = some (s, e) →
       (s = 0 ∧ lStarts h text = true ∧ e = h.length) ∨
       (text.get? s = some '\n' ∧ lStarts h (text.drop (s + 1)) = true ∧
        e = s + 1 + h.length)) ∧
    ((lStarts h text = false ∧
       ∀ i, i < text.length → text.get? i = some '\n' →
         lStarts h (text.drop (i + 1)) = false) →
      findHeader h text = none) := by
  constructor
  · intro s e hf
    unfold findHeader at hf
    by_cases hp : lStarts h text = true
    · rw [if_pos hp] at hf
      left
      rw [Option.some_inj, Prod.mk.injEq] at hf
      exact ⟨hf.1.symm, hp, hf.2.symm⟩
    · rw [if_neg hp] at hf
      obtain ⟨j, hj, hs, hnl, hpre, he⟩ := findNl_sound h text 0 s e hf
      right
      have hs0 : s = j := by omega
      rw [hs0]
      exact ⟨hnl, hpre, by omega⟩
  · rintro ⟨hp, hall⟩
    unfold findHeader
    rw [if_neg (by simp [hp])]
    exact findNl_none h text 0 hall

/-- Witness for C6: the text `"aaB:cc"` contains the header `"B:"` only
mid-line, so the search reports no boundary. -/
theorem c6_header_boundary_anchored_witness :
    findHeader ("B:".toList) "aaB:cc".toList = none :=
  (c6_header_boundary_anchored ("B:".toList) "aaB:cc".toList).2 ⟨by decide, by decide⟩

theorem consecPairs_mem {α : Type} :
    ∀ (l : List α) (pq : α × α), pq ∈ consecPairs l → pq.1 ∈ l := by
  intro l
  induction l with
  | nil => intro pq h; cases h
  | cons a rest ih =>
    intro pq h
    cases rest with
    | nil => cases h
    | cons b rest' =>
      rw [show consecPairs (a :: b :: rest') = (a, b) :: consecPairs (b :: rest') from rfl] at h
      rcases List.mem_cons.mp h with heq | hmem
      · rw [heq]; exact List.mem_cons_self _ _
      · exact List.mem_cons_of_mem a (ih pq hmem)

theorem writes_key_mem (convs : List (Key × Conv)) (text : List Char) :
    ∀ (parts : List Triple) (kk : Key) (v : Option (List Char)),
      (kk, v) ∈ prWrites convs text parts → kk ∈ parts.map fun t => t.2.2 := by
  intro parts kk v h
  unfold prWrites at h
  rcases List.mem_append.mp h with hm | hl
  · obtain ⟨pq, hpq, heq⟩ := List.mem_map.mp hm
    have h1 : pq.1 ∈ parts := consecPairs_mem parts pq hpq
    have hk : pq.1.2.2 = kk := congrArg Prod.fst heq
    exact List.mem_map.mpr ⟨pq.1, h1, hk⟩
  · cases hg : parts.getLast? with
    | none => rw [hg] at hl; cases hl
    | some t =>
      rw [hg] at hl
      rcases List.mem_cons.mp hl with heq | hmem
      · have hk : kk = t.2.2 := congrArg Prod.fst heq
        exact List.mem_map.mpr ⟨t, mem_of_getLast parts t hg, hk.symm⟩
      · cases hmem

theorem finalVal_skip :
    ∀ (ws : List (Key × Option (List Char))) (k : Key) (acc : Option (List Char)),
      (∀ w ∈ ws, w.1 ≠ k) →
      ws.foldl (fun acc w => if w.1 = k then w.2 else acc) acc = acc := by
  intro ws
  induction ws with
  | nil => intro k acc _; rfl
  | cons w rest ih =>
    intro k acc hall
    rw [List.foldl_cons, if_neg (hall w (List.mem_cons_self _ _))]
    exact ih k acc fun w' hw' => hall w' (List.mem_cons_of_mem w hw')

theorem finalVal_none (k : Key) (ws : List (Key × Option (List Char)))
    (h : ∀ w ∈ ws, w.1 ≠ k) : finalVal k ws = none :=
  finalVal_skip ws k none h

theorem alookup_map_self {α : Type} (f : Key → α) :
    ∀ (keys : List Key) (k : Key), k ∈ keys →
      alookup k (keys.map fun k' => (k', f k')) = some (f k) := by
  intro keys
  induction keys with
  | nil => intro k h; cases h
  | cons x xs ih =>
    intro k h
    rw [List.map_cons]
    by_cases hx : x = k
    · rw [alookup, if_pos hx, hx]
    · rw [alookup, if_neg hx]
      refine ih k ?_
      rcases List.mem_cons.mp h with h1 | h2
      · exact absurd h1.symm hx
      · exact h2

theorem parseResult_found (convs : List (Key × Conv)) (input : List Char)
    (t : Triple) (rest : List Triple)
    (he : sortTriples (prFound (convs.map Prod.fst) (pyStrip input)) = t :: rest) :
    parseResult convs input =
      .ok ((convs.map Prod.fst).map fun k =>
        (k, finalVal k (prWrites convs (pyStrip input)
              (prParts (convs.map Prod.fst) (t :: rest))))) := by
  simp only [parseResult, he]

theorem parseResult_notfound (convs : List (Key × Conv)) (input : List Char)
    (he : sortTriples (prFound (convs.map Prod.fst) (pyStrip input)) = []) :
    parseResult convs input = .error () := by
  simp only [parseResult, he]

/-- C3 counterexample: with one declared field `a` and the input
`"hello"`, no header occurs at all, and `parse_result` raises
(`IndexError` at `parts[0]`) instead of returning `None` for the absent
field. -/
theorem c3_counterexample :
    findHeader (fmtKey ("a".toList)) (pyStrip ("hello".toList)) = none ∧
    parseResult [("a".toList, strConv 0 0)] "hello".toList = .error () :=
  ⟨rfl, rfl⟩

/-- C3 amended: when no declared field's header occurs anywhere in the
text, `parse_result` raises rather than returning absent fields; when at
least one declared header occurs, `parse_result` succeeds and every
declared field that is neither a resolved boundary nor the synthesized
implicit predecessor gets the value `None` without an error; and at both
section-assignment sites (a middle section `result[end:next_start]` and
the final section `result[end:]`) a raw section that is empty after
trimming is recorded as `None`, not an error. -/
theorem c3_graceful_absence (convs : List (Key × Conv)) (input : List Char) :
    (sortTriples (prFound (convs.map Prod.fst) (pyStrip input)) = [] →
      parseResult convs input = .error ()) ∧
    (sortTriples (prFound (convs.map Prod.fst) (pyStrip input)) ≠ [] →
      ∃ out, parseResult convs input = .ok out ∧
        ∀ k : Key, k ∈ convs.map Prod.fst →
          k ∉ (prParts (convs.map Prod.fst)
                (sortTriples (prFound (convs.map Prod.fst) (pyStrip input)))).map
              (fun tr => tr.2.2) →
          alookup k out = some none) ∧
    (∀ (k : Key) (lo hi : Nat),
      pyStrip (((pyStrip input).drop lo).take (hi - lo)) = [] →
      secVal convs (pyStrip input) k lo hi = none) ∧
    (∀ (k : Key) (lo : Nat),
      pyStrip ((pyStrip input).drop lo) = [] →
      secValEnd convs (pyStrip input) k lo = none) := by
  refine ⟨?_, ?_, ?_, ?_⟩
  · intro hs
    exact parseResult_notfound convs input hs
  · intro hs
    cases he : sortTriples (prFound (convs.map Prod.fst) (pyStrip input)) with
    | nil => exact absurd he hs
    | cons t rest =>
      refine ⟨_, parseResult_found convs input t rest he, ?_⟩
      intro k hk hnot
      rw [alookup_map_self
            (fun k => finalVal k (prWrites convs (pyStrip input)
              (prParts (convs.map Prod.fst) (t :: rest)))) _ k hk]
      rw [finalVal_none k _ ?_]
      intro w hw hkk
      refine hnot ?_
      rw [← hkk]
      exact writes_key_mem convs (pyStrip input) _ w.1 w.2 (by rwa [show (w.1, w.2) = w from rfl])
  · intro k lo hi hblank
    simp [secVal, hblank]
  · intro k lo hblank
    simp [secValEnd, hblank]

/-- Witness for C3's amended theorem: with assignment `[a, b]` and input
`"B:hi"`, field `a`'s header is absent and `a` parses to `None`; and
with input `"A:\n\nB:hi"`, the raw section of the resolved field `a`
(the slice between the end of its header at 2 and the next boundary at
3) strips to empty and is recorded as `None`. -/
theorem c3_graceful_absence_witness :
    (alookup ("a".toList)
        [("a".toList, (none : Option (List Char))), ("b".toList, some ("hi".toList))] =
      some none) ∧
    secVal [("a".toList, strConv 0 0), ("b".toList, strConv 0 0)]
        (pyStrip ("A:\n\nB:hi".toList)) ("a".toList) 2 3 = none := by
  constructor
  · obtain ⟨out, hok, hnone⟩ :=
      (c3_graceful_absence [("a".toList, strConv 0 0), ("b".toList, strConv 0 0)]
        ("B:hi".toList)).2.1 (by decide)
    have hconc : parseResult [("a".toList, strConv 0 0), ("b".toList, strConv 0 0)]
        ("B:hi".toList) =
        .ok [("a".toList, (none : Option (List Char))), ("b".toList, some ("hi".toList))] := by
      decide
    rw [hok] at hconc
    injection hconc with hout
    rw [← hout]
    exact hnone ("a".toList) (by decide) (by decide)
  · exact (c3_graceful_absence [("a".toList, strConv 0 0), ("b".toList, strConv 0 0)]
      ("A:\n\nB:hi".toList)).2.2.1 ("a".toList) 2 3 (by decide)

/-- C4: with converter assignment `[a, b, c]`, (1) `format_query` on a
partial record containing only `a` yields the formatted `a` section
followed by a blank line and `b`'s header, so the text ends in `b`'s
header; (2) `parse_result` on text consisting of headerless content, a
newline, `c`'s header and a body — with no other anchored header
occurrence — synthesizes a zero-length leading boundary for `b` (the
declared predecessor of the first resolved field `c`), attributing the
leading content to `b` and the body to `c`, while `a` stays absent. -/
theorem c4_continuation (a b c : Key) (ca cb cc : Conv) (va : List Char)
    (content body : List Char)
    (hab : a ≠ b) (hac : a ≠ c) (hbc : b ≠ c)
    (hcne : content ≠ [])
    (hst : pyStrip (content ++ '\n' :: (fmtKey c ++ body)) =
      content ++ '\n' :: (fmtKey c ++ body))
    (hfa : findHeader (fmtKey a) (content ++ '\n' :: (fmtKey c ++ body)) = none)
    (hfb : findHeader (fmtKey b) (content ++ '\n' :: (fmtKey c ++ body)) = none)
    (hfc : findHeader (fmtKey c) (content ++ '\n' :: (fmtKey c ++ body)) =
      some (content.length, content.length + 1 + (fmtKey c).length)) :
    formatQuery [(a, ca), (b, cb), (c, cc)] [(a, va)] =
      .ok ((fmtKey a ++ ca.format va) ++ '\n' :: '\n' :: fmtKey b) ∧
    parseResult [(a, ca), (b, cb), (c, cc)] (content ++ '\n' :: (fmtKey c ++ body)) =
      .ok [(a, none),
           (b, if (pyStrip content).isEmpty then none
               else some (cb.parse (pyStrip content))),
           (c, if (pyStrip body).isEmpty then none
               else some (cc.parse (pyStrip body)))] := by
  have la : alookup a [(a, ca), (b, cb), (c, cc)] = some ca := by simp [alookup]
  have lb : alookup b [(a, ca), (b, cb), (c, cc)] = some cb := by simp [alookup, hab]
  have lc : alookup c [(a, ca), (b, cb), (c, cc)] = some cc := by simp [alookup, hac, hbc]
  constructor
  · have hfd : formatDict [(a, ca), (b, cb), (c, cc)] [(a, va)] =
        fmtKey a ++ ca.format va := by
      simp [formatDict, List.filterMap_cons, la, joinSep]
    have hidxa : idxOf? a [a, b, c] = some 0 := by simp [idxOf?]
    simp only [formatQuery, List.getLast?_singleton, List.map_cons, List.map_nil,
      hidxa, hfd]
    rw [show ([a, b, c] : List Key).get? (0 + 1) = some b from rfl]
    simp [List.append_assoc]
  · have hfound : prFound [a, b, c] (content ++ '\n' :: (fmtKey c ++ body)) =
        [(content.length, content.length + 1 + (fmtKey c).length, c)] := by
      simp only [prFound, List.filterMap_cons, List.filterMap_nil, hfa, hfb, hfc,
        Option.map_none', Option.map_some']
    have he : sortTriples (prFound ((([(a, ca), (b, cb), (c, cc)] :
          List (Key × Conv)).map Prod.fst))
          (pyStrip (content ++ '\n' :: (fmtKey c ++ body)))) =
        [(content.length, content.length + 1 + (fmtKey c).length, c)] := by
      simp only [List.map_cons, List.map_nil, hst, hfound]
      rfl
    have hidxc : idxOfK c [a, b, c] = 2 := by simp [idxOfK, idxOf?, hac, hbc]
    have hparts : prParts [a, b, c]
        [(content.length, content.length + 1 + (fmtKey c).length, c)] =
        [(0, 0, b), (content.length, content.length + 1 + (fmtKey c).length, c)] := by
      simp only [prParts, hidxc]
      rw [if_pos ⟨by omega, fun h0 => hcne (List.length_eq_zero.mp h0)⟩]
      rfl
    have hsecB : secVal [(a, ca), (b, cb), (c, cc)]
        (content ++ '\n' :: (fmtKey c ++ body)) b 0 content.length =
        (if (pyStrip content).isEmpty then none
         else some (cb.parse (pyStrip content))) := by
      have htake : (content ++ '\n' :: (fmtKey c ++ body)).take content.length =
          content := List.take_left content ('\n' :: (fmtKey c ++ body))
      simp only [secVal, List.drop_zero, Nat.sub_zero, htake, lb, Option.map_some']
    have hsecC : secValEnd [(a, ca), (b, cb), (c, cc)]
        (content ++ '\n' :: (fmtKey c ++ body)) c
        (content.length + 1 + (fmtKey c).length) =
        (if (pyStrip body).isEmpty then none
         else some (cc.parse (pyStrip body))) := by
      have hdrop : (content ++ '\n' :: (fmtKey c ++ body)).drop
          (content.length + 1 + (fmtKey c).length) = body := by
        have hshape : content ++ '\n' :: (fmtKey c ++ body) =
            (content ++ '\n' :: fmtKey c) ++ body := by
          simp [List.append_assoc]
        have hlen : content.length + 1 + (fmtKey c).length =
            (content ++ '\n' :: fmtKey c).length := by
          simp [List.length_append]
          omega
        rw [hshape, hlen]
        exact List.drop_left _ _
      simp only [secValEnd, hdrop, lc, Option.map_some']
    have hwrites : prWrites [(a, ca), (b, cb), (c, cc)]
        (content ++ '\n' :: (fmtKey c ++ body))
        [(0, 0, b), (content.length, content.length + 1 + (fmtKey c).length, c)] =
        [(b, if (pyStrip content).isEmpty then none
             else some (cb.parse (pyStrip content))),
         (c, if (pyStrip body).isEmpty then none
             else some (cc.parse (pyStrip body)))] := by
      simp only [prWrites]
      rw [show consecPairs [((0 : Nat), (0 : Nat), b),
          (content.length, content.length + 1 + (fmtKey c).length, c)] =
          [(((0 : Nat), (0 : Nat), b),
            (content.length, content.length + 1 + (fmtKey c).length, c))] from rfl]
      rw [show ([((0 : Nat), (0 : Nat), b),
          (content.length, content.length + 1 + (fmtKey c).length, c)] :
          List Triple).getLast? =
          some (content.length, content.length + 1 + (fmtKey c).length, c) from rfl]
      simp only [List.map_cons, List.map_nil, hsecB, hsecC]
      rfl
    rw [parseResult_found [(a, ca), (b, cb), (c, cc)]
      (content ++ '\n' :: (fmtKey c ++ body)) _ _ he]
    simp only [List.map_cons, List.map_nil, hst, hparts, hwrites]
    have hva : finalVal a
        [(b, if (pyStrip content).isEmpty then none
             else some (cb.parse (pyStrip content))),
         (c, if (pyStrip body).isEmpty then none
             else some (cc.parse (pyStrip body)))] = none := by
      simp [finalVal, Ne.symm hab, Ne.symm hac]
    have hvb : finalVal b
        [(b, if (pyStrip content).isEmpty then none
             else some (cb.parse (pyStrip content))),
         (c, if (pyStrip body).isEmpty then none
             else some (cc.parse (pyStrip body)))] =
        (if (pyStrip content).isEmpty then none
         else some (cb.parse (pyStrip content))) := by
      simp [finalVal, Ne.symm hbc]
    have hvc : finalVal c
        [(b, if (pyStrip content).isEmpty then none
             else some (cb.parse (pyStrip content))),
         (c, if (pyStrip body).isEmpty then none
             else some (cc.parse (pyStrip body)))] =
        (if (pyStrip body).isEmpty then none
         else some (cc.parse (pyStrip body))) := by
      simp [finalVal]
    rw [hva, hvb, hvc]

/-- Witness for C4: assignment `[q, r, s]`, value `"v"`, content
`"hello"`, body `"world"`; the parsed record is
`{q: None, r: "hello", s: "world"}`. -/
theorem c4_continuation_witness :
    formatQuery [("q".toList, strConv 0 0), ("r".toList, strConv 0 0),
        ("s".toList, strConv 0 0)] [("q".toList, "v".toList)] =
      .ok ((fmtKey ("q".toList) ++ (strConv 0 0).format ("v".toList)) ++
        '\n' :: '\n' :: fmtKey ("r".toList)) ∧
    parseResult [("q".toList, strConv 0 0), ("r".toList, strConv 0 0),
        ("s".toList, strConv 0 0)]
        ("hello".toList ++ '\n' :: (fmtKey ("s".toList) ++ "world".toList)) =
      .ok [("q".toList, none),
           ("r".toList, if (pyStrip ("hello".toList)).isEmpty then none
               else some ((strConv 0 0).parse (pyStrip ("hello".toList)))),
           ("s".toList, if (pyStrip ("world".toList)).isEmpty then none
               else some ((strConv 0 0).parse (pyStrip ("world".toList))))] :=
  c4_continuation ("q".toList) "r".toList ("s".toList) (strConv 0 0) (strConv 0 0)
    (strConv 0 0) "v".toList ("hello".toList) "world".toList
    (by decide) (by decide) (by decide) (by decide) (by decide) (by decide)
    (by decide) (by decide)

/-! ### LineTemplateConverter lemmas (claims C1, C5, C10) -/

/-- C1: for the template `"key1 (key2)"`, construction succeeds and
`format` of the record `{key1: Bob, key2: Person}` yields
`"\n    Bob (Person)"`; but `parse` of that very output raises
(`ValueError` at `_parse_line("")`, because the leading newline emitted
by `format` produces an empty first line when `parse` splits on
newlines), so `parse(format([r])) == [r]` fails.  The stripped data line
itself parses back to exactly the record, isolating the slip to the
leading newline. -/
theorem c1_roundtrip_raises :
    isOkE (ltcInit ("key1 (key2)".toList) none 4) = true ∧
    ltcFormat (ltcInitD ("key1 (key2)".toList) none 4)
        [[("key1".toList, "Bob".toList), ("key2".toList, "Person".toList)]] =
      .ok ("\n    Bob (Person)".toList) ∧
    ltcRoundTrip ("key1 (key2)".toList)
        [("key1".toList, "Bob".toList), ("key2".toList, "Person".toList)] =
      .error () ∧
    ltcParseLine (ltcInitD ("key1 (key2)".toList) none 4)
        (pyStrip ("    Bob (Person)".toList)) =
      .ok [("key1".toList, "Bob".toList), ("key2".toList, "Person".toList)] := by
  refine ⟨?_, ?_, ?_, ?_⟩ <;> decide

/-- C10: `_format_line` fails whenever the record's key set differs from
the template's key set in either direction — a missing required field or
any extra key both raise the key-mismatch error — and succeeds whenever
the two key sets are equal. -/
theorem c10_format_key_set_equality (inst : LTCInst) (data : List (Key × List Char)) :
    ((∃ k : Key, (k ∈ data.map Prod.fst ∧ k ∉ inst.keys) ∨
        (k ∈ inst.keys ∧ k ∉ data.map Prod.fst)) →
      ltcFormatLine inst data = .error ()) ∧
    (sameKeySetB inst.keys (data.map Prod.fst) = true →
      ∃ s, ltcFormatLine inst data = .ok s) := by
  constructor
  · intro h
    unfold ltcFormatLine
    rw [if_neg ?hne]
    case hne =>
      intro hT
      obtain ⟨hx, hy⟩ := (Bool.and_eq_true _ _).mp hT
      obtain ⟨k, hk⟩ := h
      rcases hk with ⟨hmem, hnot⟩ | ⟨hmem, hnot⟩
      · have := List.all_eq_true.mp hy k hmem
        exact hnot (of_decide_eq_true this)
      · have := List.all_eq_true.mp hx k hmem
        exact hnot (of_decide_eq_true this)
  · intro h
    unfold ltcFormatLine
    rw [if_pos h]
    exact ⟨_, rfl⟩

/-- Witness for C10: the template's keys are `{key1, key2}`; a record
with the extra key `extra` is rejected. -/
theorem c10_format_key_set_equality_witness :
    ltcFormatLine (ltcInitD ("key1 (key2)".toList) none 4)
        [("key1".toList, "Bob".toList), ("key2".toList, "Person".toList),
         ("extra".toList, "x".toList)] = .error () :=
  (c10_format_key_set_equality (ltcInitD ("key1 (key2)".toList) none 4)
      [("key1".toList, "Bob".toList), ("key2".toList, "Person".toList),
       ("extra".toList, "x".toList)]).1
    ⟨"extra".toList, Or.inl ⟨by decide, by decide⟩⟩

theorem mapExcept_cons {ε α β : Type} (f : α → Except ε β) (x : α) (xs : List α) :
    mapExcept f (x :: xs) =
      match f x with
      | .error e => .error e
      | .ok y => (mapExcept f xs).map fun ys => y :: ys := rfl

theorem mapExcept_error {ε α β : Type} (f : α → Except ε β) :
    ∀ (l : List α) (e : ε), mapExcept f l = .error e → ∃ x ∈ l, f x = .error e := by
  intro l
  induction l with
  | nil => intro e h; cases h
  | cons x xs ih =>
    intro e h
    rw [mapExcept_cons] at h
    cases hf : f x with
    | error e' =>
      rw [hf] at h
      injection h with he
      exact ⟨x, List.mem_cons_self _ _, by rw [hf, he]⟩
    | ok y =>
      rw [hf] at h
      cases hm : mapExcept f xs with
      | error e2 =>
        rw [hm] at h
        injection h with he
        obtain ⟨x', hx', hfx'⟩ := ih e2 hm
        exact ⟨x', List.mem_cons_of_mem x hx', by rw [hfx', he]⟩
      | ok ys => rw [hm] at h; cases h

theorem exclOf_error (sp k : List Char) (e : LTCErr)
    (h : exclOf sp k = .error e) : e = .splitBad := by
  unfold exclOf at h
  cases hs : splitOn k sp with
  | nil => rw [hs] at h; injection h with he; exact he.symm
  | cons p0 ps =>
    cases ps with
    | nil => rw [hs] at h; injection h with he; exact he.symm
    | cons p1 ps' => rw [hs] at h; cases h

theorem ltcBuild_not_ambiguous (t : List Char) (keys : List Key) (ck : Option Key)
    (ind : Nat) (k : List Char) : ltcBuild t keys ck ind ≠ .error (.ambiguous k) := by
  unfold ltcBuild
  intro hcontra
  cases hm : mapExcept (fun k' =>
      if ck = some k' then .ok (k', GrpKind.anyLazy)
      else (exclOf (spaceless t) k').map fun e => (k', GrpKind.excl e)) keys with
  | error e =>
    rw [hm] at hcontra
    injection hcontra with he
    obtain ⟨x, _, hfx⟩ := mapExcept_error _ keys e hm
    by_cases hck : ck = some x
    · rw [if_pos hck] at hfx; cases hfx
    · rw [if_neg hck] at hfx
      cases hex : exclOf (spaceless t) x with
      | error e2 =>
        rw [hex] at hfx
        injection hfx with he2
        have := exclOf_error (spaceless t) x e2 hex
        rw [he2, he] at this
        cases this
      | ok v => rw [hex] at hfx; cases hfx
  | ok kinds =>
    rw [hm] at hcontra
    by_cases hnd : keys.Nodup
    · rw [show Except.bind (Except.ok kinds) _ = _ from rfl] at hcontra
      simp only [Except.bind, if_pos hnd] at hcontra
      cases hcontra
    · simp only [Except.bind, if_neg hnd] at hcontra
      cases hcontra

theorem gapsOf_length_pos (g : List Char) (l : List (List Char)) :
    0 < (gapsOf (g :: l)).length := by
  cases l with
  | nil => simp [gapsOf]
  | cons w rest => simp [gapsOf]

theorem gapsOf_head (g : List Char) (l : List (List Char)) :
    (gapsOf (g :: l)).getD 0 [] = g := by
  cases l with
  | nil => rfl
  | cons w rest => rfl

theorem ambAux_iff :
    ∀ (n : Nat) (rest : List (List Char)) (g : List Char), rest.length ≤ n →
      ((ambAux g rest).isSome = true ↔
        ∃ j, j + 1 < (gapsOf (g :: rest)).length ∧
          blankB ((gapsOf (g :: rest)).getD j []) = true ∧
          blankB ((gapsOf (g :: rest)).getD (j + 1) []) = true) := by
  intro n
  induction n with
  | zero =>
    intro rest g hlen
    have hr : rest = [] := List.length_eq_zero.mp (Nat.le_zero.mp hlen)
    subst hr
    simp only [ambAux, gapsOf, List.length_singleton, Option.isSome_none]
    constructor
    · intro h; cases h
    · rintro ⟨j, hj, _⟩; omega
  | succ n ih =>
    intro rest g hlen
    cases rest with
    | nil =>
      simp only [ambAux, gapsOf, List.length_singleton, Option.isSome_none]
      constructor
      · intro h; cases h
      · rintro ⟨j, hj, _⟩; omega
    | cons w rest1 =>
      cases rest1 with
      | nil =>
        simp only [ambAux, gapsOf, List.length_singleton, Option.isSome_none]
        constructor
        · intro h; cases h
        · rintro ⟨j, hj, _⟩; omega
      | cons g' rest' =>
        have hgaps : gapsOf (g :: w :: g' :: rest') = g :: gapsOf (g' :: rest') := rfl
        have hlen' : (g' :: rest').length ≤ n := by
          have h9 : (w :: g' :: rest').length = (g' :: rest').length + 1 := rfl
          omega
        rw [show ambAux g (w :: g' :: rest') =
            (if (blankB g && blankB g') = true then some w else ambAux g' rest') from rfl]
        by_cases hbg : (blankB g && blankB g') = true
        · rw [if_pos hbg]
          obtain ⟨hg, hg'⟩ := (Bool.and_eq_true _ _).mp hbg
          simp only [Option.isSome_some, true_iff]
          refine ⟨0, ?_, ?_, ?_⟩
          · rw [hgaps]
            have := gapsOf_length_pos g' rest'
            simp only [List.length_cons]
            omega
          · rw [hgaps]
            exact hg
          · rw [hgaps,
              show (g :: gapsOf (g' :: rest')).getD (0 + 1) [] =
                (gapsOf (g' :: rest')).getD 0 [] from rfl,
              gapsOf_head g' rest']
            exact hg'
        · rw [if_neg hbg]
          have hlen'' : rest'.length ≤ n := by
            have h8 : (g' :: rest').length = rest'.length + 1 := rfl
            omega
          rw [ih rest' g' hlen'']
          constructor
          · rintro ⟨j, hj, h1, h2⟩
            refine ⟨j + 1, ?_, ?_, ?_⟩
            · rw [hgaps]; simp only [List.length_cons]; omega
            · rw [hgaps]; simpa using h1
            · rw [hgaps]; simpa using h2
          · rintro ⟨j, hj, h1, h2⟩
            cases j with
            | zero =>
              exfalso
              rw [hgaps] at h1 h2
              simp only [List.getD_cons_zero] at h1
              have hg'v : blankB g' = true := by
                rw [show (g :: gapsOf (g' :: rest')).getD (0 + 1) [] =
                    (gapsOf (g' :: rest')).getD 0 [] from rfl,
                  gapsOf_head g' rest'] at h2
                exact h2
              exact hbg (by simp [h1, hg'v])
            | succ j' =>
              refine ⟨j', ?_, ?_, ?_⟩
              · rw [hgaps] at hj; simp only [List.length_cons] at hj; omega
              · rw [hgaps] at h1; simpa using h1
              · rw [hgaps] at h2; simpa using h2

/-- C5 counterexample: the template `"aa|bb cc|dd"` has the adjacent
field tokens `bb`, `cc` with only whitespace between them (the spec's
ambiguity condition holds), yet the validation loop finds no offending
key and construction succeeds. -/
theorem c5_counterexample :
    specAdjacentAmbiguousB ("aa|bb cc|dd".toList) = true ∧
    ambiguousKey (lexTemplate ("aa|bb cc|dd".toList)) = none ∧
    isOkE (ltcInit ("aa|bb cc|dd".toList) none 4) = true := by
  refine ⟨?_, ?_, ?_⟩ <;> decide

/-- C5 amended: construction raises the ambiguous-template error (naming
a field) exactly when some single field token has whitespace-only gaps
on both of its sides — the template's ends counting as blank — i.e. when
two consecutive gaps of the template are both blank.  Two adjacent
unseparated tokens therefore trigger the error only when one of them is
also blank-flanked on its far side; otherwise construction proceeds. -/
theorem c5_ambiguous_characterization (t : List Char) (ind : Nat) :
    (∃ k, ltcInit t none ind = .error (.ambiguous k)) ↔
    ∃ j, j + 1 < (gapsOf (lexTemplate t)).length ∧
      blankB ((gapsOf (lexTemplate t)).getD j []) = true ∧
      blankB ((gapsOf (lexTemplate t)).getD (j + 1) []) = true := by
  have hmain : (∃ k, ltcInit t none ind = .error (.ambiguous k)) ↔
      (ambiguousKey (lexTemplate t)).isSome = true := by
    cases ha : ambiguousKey (lexTemplate t) with
    | some w =>
      simp only [Option.isSome_some, iff_true]
      exact ⟨w, by simp [ltcInit, ha]⟩
    | none =>
      simp only [Option.isSome_none]
      constructor
      · rintro ⟨k, hk⟩
        rw [show ltcInit t none ind = ltcBuild t (wordsOf (lexTemplate t)) none ind from
          by simp [ltcInit, ha]] at hk
        exact absurd hk (ltcBuild_not_ambiguous t _ none ind k)
      · intro hfalse; cases hfalse
  rw [hmain]
  cases hp : lexTemplate t with
  | nil =>
    simp only [ambiguousKey, gapsOf, List.length_nil, Option.isSome_none]
    constructor
    · intro h; cases h
    · rintro ⟨j, hj, _⟩; omega
  | cons g rest =>
    exact ambAux_iff rest.length rest g (Nat.le_refl _)

end Shotmaker
